import Mathlib

/-!
Verification of `lic` (LICENSE-file generator)

A shallow embedding of `src/main.rs` of the `lic` command-line tool.
Strings are modelled as `List Char`.  Rust's `str::replace` (replace every
non-overlapping occurrence of a literal pattern, scanning left to right) is
modelled by `Lic.strReplace`; the CLI handlers `handle_cli` and
`handle_interactive`, the git identity lookup `get_git_user_name` and the
placeholder substitution `replace_placeholders` are modelled below, each as a
pure function over an explicit environment recording the outcomes of the
external effects (process invocation, HTTP fetches, interactive prompts).
The single file write `fs::write("LICENSE", ..)` is modelled as the list of
write events the run produces.
-/

namespace Lic

/-- Strings are lists of characters. -/
abbrev Str := List Char

/-! ## Rust `str::replace`

`repAllF pat rep f s` scans `s` left to right; whenever `pat` is a prefix of
the remaining input the match is consumed and `rep` is emitted, otherwise one
character is copied.  `f` is structural fuel (one unit per step); any fuel
larger than `s.length` computes the untruncated result. -/

/-- Fuelled left-to-right replace-all scan (the core of Rust `str::replace`). -/
def repAllF (pat rep : Str) : Nat → Str → Str
  | 0, s => s
  | _ + 1, [] => []
  | f + 1, c :: cs =>
    if pat <+: (c :: cs) then rep ++ repAllF pat rep f (List.drop pat.length (c :: cs))
    else c :: repAllF pat rep f cs

/-- Model of Rust `s.replace(pat, rep)`.  For an empty pattern Rust inserts
`rep` at every character boundary (including both ends); for a nonempty
pattern it replaces every non-overlapping occurrence, scanning left to
right. -/
def strReplace (s pat rep : Str) : Str :=
  if pat = [] then rep ++ s.flatMap (fun c => c :: rep)
  else repAllF pat rep (s.length + 1) s

theorem repAllF_congr_aux {pat rep : Str} (hpat : pat ≠ []) :
    ∀ (n : Nat) (s : Str) (f g : Nat), s.length ≤ n → s.length < f → s.length < g →
      repAllF pat rep f s = repAllF pat rep g s := by
  intro n
  induction n with
  | zero =>
    intro s f g hn hf hg
    have hs : s = [] := List.eq_nil_of_length_eq_zero (Nat.le_zero.mp hn)
    subst hs
    cases f with
    | zero => exact absurd hf (Nat.not_lt_zero _)
    | succ f' =>
      cases g with
      | zero => exact absurd hg (Nat.not_lt_zero _)
      | succ g' => rfl
  | succ n ih =>
    intro s f g hn hf hg
    have hplen : 0 < pat.length := List.length_pos.mpr hpat
    cases f with
    | zero => exact absurd hf (Nat.not_lt_zero _)
    | succ f' =>
      cases g with
      | zero => exact absurd hg (Nat.not_lt_zero _)
      | succ g' =>
        cases s with
        | nil => rfl
        | cons c cs =>
          simp only [List.length_cons] at hn hf hg
          by_cases h : pat <+: (c :: cs)
          · simp only [repAllF, if_pos h]
            have hdl : (List.drop pat.length (c :: cs)).length = cs.length + 1 - pat.length := by
              simp [List.length_drop]
            rw [ih (List.drop pat.length (c :: cs)) f' g' (by omega) (by omega) (by omega)]
          · simp only [repAllF, if_neg h]
            rw [ih cs f' g' (by omega) (by omega) (by omega)]

theorem repAllF_congr {pat rep : Str} (hpat : pat ≠ []) (f g : Nat) (s : Str)
    (hf : s.length < f) (hg : s.length < g) :
    repAllF pat rep f s = repAllF pat rep g s :=
  repAllF_congr_aux hpat s.length s f g le_rfl hf hg

theorem strReplace_nil {pat : Str} (rep : Str) (hpat : pat ≠ []) :
    strReplace [] pat rep = [] := by
  simp [strReplace, hpat, repAllF]

theorem strReplace_cons_match {pat : Str} (rep : Str) {c : Char} {cs : Str}
    (h : pat <+: c :: cs) (hpat : pat ≠ []) :
    strReplace (c :: cs) pat rep
      = rep ++ strReplace (List.drop pat.length (c :: cs)) pat rep := by
  have hplen : 0 < pat.length := List.length_pos.mpr hpat
  unfold strReplace
  rw [if_neg hpat, if_neg hpat]
  show repAllF pat rep (cs.length + 1 + 1) (c :: cs) = _
  simp only [repAllF, if_pos h]
  congr 1
  exact repAllF_congr hpat _ _ _
    (by simp only [List.length_drop, List.length_cons]; omega)
    (by simp only [List.length_drop, List.length_cons]; omega)

theorem strReplace_cons_nomatch {pat : Str} (rep : Str) {c : Char} {cs : Str}
    (h : ¬ pat <+: c :: cs) :
    strReplace (c :: cs) pat rep = c :: strReplace cs pat rep := by
  have hpat : pat ≠ [] := by
    rintro rfl; exact h (List.nil_prefix)
  unfold strReplace
  rw [if_neg hpat, if_neg hpat]
  show repAllF pat rep (cs.length + 1 + 1) (c :: cs) = _
  simp only [repAllF, if_neg h]

/-! ## Substring bookkeeping

Small decomposition lemmas about `<+:` (prefix), `<:+` (suffix) and `<:+:`
(contiguous substring) used to reason about the replacement scan. -/

theorem subNil {l : Str} (h : l <:+: ([] : Str)) : l = [] := by
  have := h.length_le
  simpa using List.eq_nil_of_length_eq_zero (Nat.le_zero.mp (by simpa using this))

theorem nilSub (l : Str) : ([] : Str) <:+: l :=
  ⟨[], l, rfl⟩

theorem subConsOf {l t : Str} {c : Char} (h : l <:+: t) : l <:+: c :: t := by
  obtain ⟨s, u, rfl⟩ := h
  exact ⟨c :: s, u, rfl⟩

theorem subConsCases {l t : Str} {c : Char} (h : l <:+: c :: t) :
    l <+: c :: t ∨ l <:+: t := by
  obtain ⟨s, u, hs⟩ := h
  cases s with
  | nil => left; exact ⟨u, hs⟩
  | cons d s' =>
    right
    rw [List.cons_append, List.cons_append] at hs
    injection hs with _ h2
    exact ⟨s', u, h2⟩

theorem preAppCases : ∀ {u x : Str} (y : Str), u <+: x ++ y →
    u <+: x ∨ ∃ w, u = x ++ w ∧ w <+: y := by
  intro u x
  induction x generalizing u with
  | nil => intro y h; right; exact ⟨u, rfl, h⟩
  | cons c x' ih =>
    intro y h
    cases u with
    | nil => left; exact List.nil_prefix
    | cons d u' =>
      rw [List.cons_append, List.cons_prefix_cons] at h
      obtain ⟨rfl, h'⟩ := h
      rcases ih y h' with h1 | ⟨w, rfl, hw⟩
      · left; exact List.cons_prefix_cons.mpr ⟨rfl, h1⟩
      · right; exact ⟨w, by simp, hw⟩

theorem subAppCases : ∀ {l x : Str} (y : Str), l <:+: x ++ y →
    l <:+: x ∨ l <:+: y ∨
      ∃ u v, l = u ++ v ∧ u ≠ [] ∧ v ≠ [] ∧ u <:+ x ∧ v <+: y := by
  intro l x
  induction x generalizing l with
  | nil => intro y h; right; left; exact h
  | cons c x' ih =>
    intro y h
    rw [List.cons_append] at h
    rcases subConsCases h with hp | hi
    · rcases preAppCases (x := c :: x') y hp with h1 | ⟨w, rfl, hw⟩
      · left; exact h1.isInfix
      · cases w with
        | nil => left; rw [List.append_nil]
        | cons e w' =>
          right; right
          exact ⟨c :: x', e :: w', rfl, List.cons_ne_nil _ _, List.cons_ne_nil _ _,
            List.suffix_rfl, hw⟩
    · rcases ih y hi with h1 | h2 | ⟨u, v, rfl, hu, hv, hux, hvy⟩
      · left; exact subConsOf h1
      · right; left; exact h2
      · right; right
        exact ⟨u, v, rfl, hu, hv, hux.trans (List.suffix_cons c x'), hvy⟩

/-! ## The gap structure of a replacement scan -/

/-- Concatenate the pieces of a list, inserting `sep` between adjacent
pieces. -/
def joinSep (sep : Str) : List Str → Str
  | [] => []
  | [p] => p
  | p :: q :: ps => p ++ sep ++ joinSep sep (q :: ps)

theorem joinSep_cons₂ (sep p q : Str) (ps : List Str) :
    joinSep sep (p :: q :: ps) = p ++ sep ++ joinSep sep (q :: ps) := rfl

/-- `strReplace s pat rep` splits `s` into the gaps between the matches of
`pat` and re-joins them with `rep` as separator: the first gap is a prefix
of `s`, every gap is a contiguous substring of `s`, and no gap contains an
occurrence of `pat`. -/
theorem strReplace_structure {pat rep : Str} (hpat : pat ≠ []) :
    ∀ s : Str, ∃ p ps, strReplace s pat rep = joinSep rep (p :: ps) ∧ p <+: s ∧
      ∀ q ∈ p :: ps, q <:+: s ∧ ¬ pat <:+: q := by
  have main : ∀ (n : Nat) (s : Str), s.length ≤ n →
      ∃ p ps, strReplace s pat rep = joinSep rep (p :: ps) ∧ p <+: s ∧
        ∀ q ∈ p :: ps, q <:+: s ∧ ¬ pat <:+: q := by
    intro n
    induction n with
    | zero =>
      intro s hn
      have hs : s = [] := List.eq_nil_of_length_eq_zero (Nat.le_zero.mp hn)
      subst hs
      refine ⟨[], [], ?_, List.nil_prefix, ?_⟩
      · rw [strReplace_nil rep hpat]; rfl
      · intro q hq
        simp only [List.mem_singleton] at hq
        subst hq
        exact ⟨nilSub [], fun hcon => hpat (subNil hcon)⟩
    | succ n ih =>
      intro s hn
      cases s with
      | nil =>
        refine ⟨[], [], ?_, List.nil_prefix, ?_⟩
        · rw [strReplace_nil rep hpat]; rfl
        · intro q hq
          simp only [List.mem_singleton] at hq
          subst hq
          exact ⟨nilSub [], fun hcon => hpat (subNil hcon)⟩
      | cons c cs =>
        have hplen : 0 < pat.length := List.length_pos.mpr hpat
        simp only [List.length_cons] at hn
        by_cases h : pat <+: c :: cs
        · rw [strReplace_cons_match rep h hpat]
          obtain ⟨p', ps', heq, _, hall⟩ := ih (List.drop pat.length (c :: cs))
            (by simp only [List.length_drop, List.length_cons]; omega)
          refine ⟨[], p' :: ps', ?_, List.nil_prefix, ?_⟩
          · rw [heq]; rfl
          · intro q hq
            rcases List.mem_cons.mp hq with rfl | hq'
            · exact ⟨nilSub _, fun hcon => hpat (subNil hcon)⟩
            · obtain ⟨h1, h2⟩ := hall q hq'
              exact ⟨h1.trans (List.drop_suffix _ _).isInfix, h2⟩
        · rw [strReplace_cons_nomatch rep h]
          obtain ⟨p', ps', heq, hpre, hall⟩ := ih cs (by omega)
          refine ⟨c :: p', ps', ?_, List.cons_prefix_cons.mpr ⟨rfl, hpre⟩, ?_⟩
          · rw [heq]
            cases ps' with
            | nil => rfl
            | cons q ps'' => rfl
          · intro q hq
            rcases List.mem_cons.mp hq with rfl | hq'
            · constructor
              · exact (List.cons_prefix_cons.mpr ⟨rfl, hpre⟩).isInfix
              · intro hcon
                rcases subConsCases hcon with hp | hi
                · exact h (hp.trans (List.cons_prefix_cons.mpr ⟨rfl, hpre⟩))
                · exact (hall p' (List.mem_cons_self _ _)).2 hi
            · obtain ⟨h1, h2⟩ := hall q (List.mem_cons_of_mem _ hq')
              exact ⟨subConsOf h1, h2⟩
  exact fun s => main s.length s le_rfl

/-- If the separator is nonempty and shares no character with `qat`, and no
piece contains `qat`, then the joined string contains no `qat` either. -/
theorem joinSep_no_sub {sep qat : Str} (hsep : sep ≠ []) (hq : qat ≠ [])
    (hdisj : ∀ c ∈ sep, c ∉ qat) :
    ∀ pieces : List Str, (∀ q ∈ pieces, ¬ qat <:+: q) →
      ¬ qat <:+: joinSep sep pieces := by
  intro pieces
  induction pieces with
  | nil => intro _ hcon; exact hq (subNil hcon)
  | cons p ps ih =>
    intro hp hcon
    cases ps with
    | nil => exact hp p (List.mem_cons_self _ _) hcon
    | cons q ps' =>
      rw [joinSep_cons₂, List.append_assoc] at hcon
      rcases subAppCases _ hcon with h1 | h2 | ⟨u, v, hl, hu, hv, _, hvy⟩
      · exact hp p (List.mem_cons_self _ _) h1
      · rcases subAppCases _ h2 with h3 | h4 | ⟨u, v, hl, hu, hv, hux, _⟩
        · cases qat with
          | nil => exact hq rfl
          | cons d q' =>
            exact hdisj d (h3.subset (List.mem_cons_self _ _)) (List.mem_cons_self _ _)
        · exact ih (fun r hr => hp r (List.mem_cons_of_mem _ hr)) h4
        · cases u with
          | nil => exact hu rfl
          | cons e u' =>
            refine hdisj e (hux.subset (List.mem_cons_self _ _)) ?_
            rw [hl]
            exact List.mem_append_left _ (List.mem_cons_self _ _)
      · cases v with
        | nil => exact hv rfl
        | cons e v' =>
          cases sep with
          | nil => exact hsep rfl
          | cons g sep' =>
            rw [List.cons_append, List.cons_prefix_cons] at hvy
            refine hdisj e (by rw [hvy.1]; exact List.mem_cons_self _ _) ?_
            rw [hl]
            exact List.mem_append_right _ (List.mem_cons_self _ _)

/-- After replacing every occurrence of a nonempty `pat` with a nonempty
replacement that shares no character with `pat`, the result contains no
occurrence of `pat`. -/
theorem strReplace_no_self {pat rep : Str} (hpat : pat ≠ []) (hrep : rep ≠ [])
    (hdisj : ∀ c ∈ rep, c ∉ pat) (s : Str) : ¬ pat <:+: strReplace s pat rep := by
  obtain ⟨p, ps, heq, _, hall⟩ := strReplace_structure hpat s
  rw [heq]
  exact joinSep_no_sub hrep hpat hdisj _ (fun q hq => (hall q hq).2)

/-- Replacing occurrences of `pat` with a nonempty replacement that shares no
character with `qat` cannot create an occurrence of `qat`. -/
theorem strReplace_keeps_no {pat rep qat : Str} (hpat : pat ≠ []) (hrep : rep ≠ [])
    (hq : qat ≠ []) (hdisj : ∀ c ∈ rep, c ∉ qat) {s : Str}
    (hs : ¬ qat <:+: s) : ¬ qat <:+: strReplace s pat rep := by
  obtain ⟨p, ps, heq, _, hall⟩ := strReplace_structure hpat s
  rw [heq]
  exact joinSep_no_sub hrep hq hdisj _ (fun r hr hcon => hs (hcon.trans (hall r hr).1))

/-- Replacing a pattern that does not occur in `s` leaves `s` unchanged. -/
theorem strReplace_of_no {pat rep : Str} :
    ∀ {s : Str}, ¬ pat <:+: s → strReplace s pat rep = s := by
  intro s
  induction s with
  | nil =>
    intro hs
    exact strReplace_nil rep (fun h => hs (h ▸ nilSub []))
  | cons c cs ih =>
    intro hs
    have h : ¬ pat <+: c :: cs := fun hp => hs hp.isInfix
    rw [strReplace_cons_nomatch rep h, ih (fun hc => hs (subConsOf hc))]

/-! ## Non-overlapping patterns and commutation of replacements -/

/-- Occurrences of the two distinct literal patterns `A` and `B` can never
overlap in any string: neither is a substring of the other, no nonempty
suffix of `A` is a prefix of `B`, and no nonempty suffix of `B` is a prefix
of `A`.  (All eight placeholder tokens satisfy this pairwise.) -/
def noOv (A B : Str) : Prop :=
  ¬ A <:+: B ∧ ¬ B <:+: A ∧
    (∀ i, i < A.length → ¬ A.drop i <+: B) ∧
    (∀ i, i < B.length → ¬ B.drop i <+: A)

instance (A B : Str) : Decidable (noOv A B) := by
  unfold noOv
  infer_instance

theorem noOv_symm {A B : Str} (h : noOv A B) : noOv B A :=
  ⟨h.2.1, h.1, h.2.2.2, h.2.2.1⟩

/-- If `A` matches at the head of `s` then `B` matches nowhere inside the
matched block. -/
theorem no_match_inside {A B s : Str} (hno : noOv A B) (hA : A <+: s) :
    ∀ i, i < A.length → ¬ B <+: s.drop i := by
  intro i hi hB
  obtain ⟨rest, rfl⟩ := hA
  rw [List.drop_append_of_le_length (le_of_lt hi)] at hB
  by_cases hlen : B.length ≤ A.length - i
  · have h2 : B <+: A.drop i :=
      List.prefix_of_prefix_length_le hB (List.prefix_append _ _)
        (by simpa [List.length_drop] using hlen)
    exact hno.2.1 ((List.infix_iff_prefix_suffix).mpr ⟨A.drop i, h2, List.drop_suffix i A⟩)
  · have h2 : A.drop i <+: B :=
      List.prefix_of_prefix_length_le (List.prefix_append _ _) hB
        (by simp only [List.length_drop]; omega)
    exact hno.2.2.1 i hi h2

/-- If no match of `pat` starts within the first `k` characters, the scan
copies them unchanged. -/
theorem strReplace_skip {pat rep : Str} :
    ∀ (k : Nat) (s : Str), (∀ i, i < k → ¬ pat <+: s.drop i) →
      strReplace s pat rep = s.take k ++ strReplace (s.drop k) pat rep := by
  intro k
  induction k with
  | zero => intro s _; simp
  | succ n ih =>
    intro s h
    cases s with
    | nil => simp
    | cons c cs =>
      have h0 : ¬ pat <+: c :: cs := by simpa using h 0 (Nat.succ_pos n)
      rw [strReplace_cons_nomatch rep h0,
        ih cs (fun i hi => by simpa using h (i + 1) (by omega))]
      rfl

/-- The scan walks through a block that contains no character of `pat`
without firing. -/
theorem strReplace_app_disj {pat rep : Str} (hpat : pat ≠ []) :
    ∀ (u v : Str), (∀ c ∈ u, c ∉ pat) →
      strReplace (u ++ v) pat rep = u ++ strReplace v pat rep := by
  intro u
  induction u with
  | nil => intro v _; rfl
  | cons c u' ih =>
    intro v hdisj
    have h : ¬ pat <+: c :: (u' ++ v) := by
      intro hp
      cases pat with
      | nil => exact hpat rfl
      | cons d p' =>
        rw [List.cons_prefix_cons] at hp
        exact hdisj c (List.mem_cons_self _ _) (hp.1 ▸ List.mem_cons_self _ _)
    rw [List.cons_append, strReplace_cons_nomatch rep h,
      ih v (fun e he => hdisj e (List.mem_cons_of_mem _ he))]
    rfl

/-- A match of `pat` at the very head of the input fires. -/
theorem strReplace_head_match {pat : Str} (rep : Str) (hpat : pat ≠ []) (v : Str) :
    strReplace (pat ++ v) pat rep = rep ++ strReplace v pat rep := by
  cases pat with
  | nil => exact absurd rfl hpat
  | cons d p' =>
    rw [List.cons_append,
      strReplace_cons_match rep (by rw [← List.cons_append]; exact List.prefix_append _ _) hpat]
    congr 1
    rw [← List.cons_append, List.drop_left]

/-- A prefix of a separator-joined list either lies inside the first piece
or picks up a character of the separator. -/
theorem pre_joinSep {sep : Str} (hsep : sep ≠ []) (p : Str) (ps : List Str) {u : Str}
    (h : u <+: joinSep sep (p :: ps)) : u <+: p ∨ ∃ e ∈ sep, e ∈ u := by
  cases ps with
  | nil => left; exact h
  | cons q ps' =>
    rw [joinSep_cons₂, List.append_assoc] at h
    rcases preAppCases _ h with h1 | ⟨w, rfl, hw⟩
    · left; exact h1
    · cases w with
      | nil => left; rw [List.append_nil]
      | cons e w' =>
        right
        cases sep with
        | nil => exact absurd rfl hsep
        | cons g sep' =>
          rw [List.cons_append, List.cons_prefix_cons] at hw
          exact ⟨e, by rw [hw.1]; exact List.mem_cons_self _ _,
            List.mem_append_right _ (List.mem_cons_self _ _)⟩

/-- If `B` does not match at the head of `c :: cs`, then after replacing `A`
inside `cs` (with a nonempty replacement containing no character of `B`),
`B` still does not match at the head. -/
theorem no_new_head_match {A ta B : Str} (hA : A ≠ []) (hta : ta ≠ [])
    (hdisj : ∀ c ∈ ta, c ∉ B) {c : Char} {cs : Str}
    (hBs : ¬ B <+: c :: cs) (hB : B ≠ []) :
    ¬ B <+: c :: strReplace cs A ta := by
  intro hcon
  obtain ⟨p, ps, heq, hpre, _⟩ := strReplace_structure hA cs
  rw [heq] at hcon
  cases B with
  | nil => exact hB rfl
  | cons d B' =>
    rw [List.cons_prefix_cons] at hcon
    obtain ⟨rfl, hB'⟩ := hcon
    rcases pre_joinSep hta p ps hB' with h1 | ⟨e, he_ta, he_B'⟩
    · exact hBs (List.cons_prefix_cons.mpr ⟨rfl, h1.trans hpre⟩)
    · exact hdisj e he_ta (List.mem_cons_of_mem _ he_B')

/-- Replacements of two non-overlapping patterns commute, provided both
replacement strings are nonempty and contain no character of either
pattern. -/
theorem strReplace_comm {A B ta tb : Str} (hA : A ≠ []) (hB : B ≠ [])
    (hta : ta ≠ []) (htb : tb ≠ []) (hno : noOv A B)
    (hdta : ∀ c ∈ ta, c ∉ A ∧ c ∉ B) (hdtb : ∀ c ∈ tb, c ∉ A ∧ c ∉ B) :
    ∀ s : Str, strReplace (strReplace s A ta) B tb
      = strReplace (strReplace s B tb) A ta := by
  have main : ∀ (n : Nat) (s : Str), s.length ≤ n →
      strReplace (strReplace s A ta) B tb = strReplace (strReplace s B tb) A ta := by
    intro n
    induction n with
    | zero =>
      intro s hn
      have hs : s = [] := List.eq_nil_of_length_eq_zero (Nat.le_zero.mp hn)
      subst hs
      rw [strReplace_nil ta hA, strReplace_nil tb hB, strReplace_nil ta hA]
    | succ n ih =>
      intro s hn
      cases s with
      | nil =>
        rw [strReplace_nil ta hA, strReplace_nil tb hB, strReplace_nil ta hA]
      | cons c cs =>
        have hAlen : 0 < A.length := List.length_pos.mpr hA
        have hBlen : 0 < B.length := List.length_pos.mpr hB
        simp only [List.length_cons] at hn
        by_cases hAp : A <+: c :: cs
        · -- `A` fires at the head; `B` cannot fire inside the matched block.
          have hBnot : ∀ i, i < A.length → ¬ B <+: (c :: cs).drop i :=
            no_match_inside hno hAp
          have htake : (c :: cs).take A.length = A := (List.prefix_iff_eq_take.mp hAp).symm
          have hdrop_len : (List.drop A.length (c :: cs)).length ≤ n := by
            simp only [List.length_drop, List.length_cons]; omega
          calc strReplace (strReplace (c :: cs) A ta) B tb
              = strReplace (ta ++ strReplace (List.drop A.length (c :: cs)) A ta) B tb := by
                rw [strReplace_cons_match ta hAp hA]
            _ = ta ++ strReplace (strReplace (List.drop A.length (c :: cs)) A ta) B tb := by
                rw [strReplace_app_disj hB ta _ (fun e he => (hdta e he).2)]
            _ = ta ++ strReplace (strReplace (List.drop A.length (c :: cs)) B tb) A ta := by
                rw [ih _ hdrop_len]
            _ = strReplace (A ++ strReplace (List.drop A.length (c :: cs)) B tb) A ta := by
                rw [strReplace_head_match ta hA]
            _ = strReplace (strReplace (c :: cs) B tb) A ta := by
                rw [strReplace_skip A.length (c :: cs) hBnot, htake]
        · by_cases hBp : B <+: c :: cs
          · -- symmetric: `B` fires at the head.
            have hAnot : ∀ i, i < B.length → ¬ A <+: (c :: cs).drop i :=
              no_match_inside (noOv_symm hno) hBp
            have htake : (c :: cs).take B.length = B := (List.prefix_iff_eq_take.mp hBp).symm
            have hdrop_len : (List.drop B.length (c :: cs)).length ≤ n := by
              simp only [List.length_drop, List.length_cons]; omega
            calc strReplace (strReplace (c :: cs) A ta) B tb
                = strReplace (B ++ strReplace (List.drop B.length (c :: cs)) A ta) B tb := by
                  rw [strReplace_skip B.length (c :: cs) hAnot, htake]
              _ = tb ++ strReplace (strReplace (List.drop B.length (c :: cs)) A ta) B tb := by
                  rw [strReplace_head_match tb hB]
              _ = tb ++ strReplace (strReplace (List.drop B.length (c :: cs)) B tb) A ta := by
                  rw [ih _ hdrop_len]
              _ = strReplace (tb ++ strReplace (List.drop B.length (c :: cs)) B tb) A ta := by
                  rw [strReplace_app_disj hA tb _ (fun e he => (hdtb e he).1)]
              _ = strReplace (strReplace (c :: cs) B tb) A ta := by
                  rw [strReplace_cons_match tb hBp hB]
          · -- neither fires at the head; neither can start firing there
            -- after the other replacement has run on the tail.
            have h1 : ¬ B <+: c :: strReplace cs A ta :=
              no_new_head_match hA hta (fun e he => (hdta e he).2) hBp hB
            have h2 : ¬ A <+: c :: strReplace cs B tb :=
              no_new_head_match hB htb (fun e he => (hdtb e he).1) hAp hA
            rw [strReplace_cons_nomatch ta hAp, strReplace_cons_nomatch tb hBp,
              strReplace_cons_nomatch tb h1, strReplace_cons_nomatch ta h2,
              ih cs (by omega)]
  exact fun s => main s.length s le_rfl

/-! ## `replace_placeholders` (src/main.rs, lines 176-190) -/

/-- `fn replace_placeholders(template, year, author)`: the eight sequential
literal replacements of the source, in source order. -/
def replace_placeholders (template year author : Str) : Str :=
  let result := template
  let result := strReplace result ("[year]".data) year
  let result := strReplace result ("[yyyy]".data) year
  let result := strReplace result ("<year>".data) year
  let result := strReplace result ("YEAR".data) year
  let result := strReplace result ("[fullname]".data) author
  let result := strReplace result ("[name of copyright owner]".data) author
  let result := strReplace result ("<copyright holders>".data) author
  let result := strReplace result ("<name of author>".data) author
  result

/-- The four year placeholder tokens, in source order. -/
def yearTokens : List Str :=
  ["[year]".data, "[yyyy]".data, "<year>".data, "YEAR".data]

/-- The four author placeholder tokens, in source order. -/
def authorTokens : List Str :=
  ["[fullname]".data, "[name of copyright owner]".data,
   "<copyright holders>".data, "<name of author>".data]

/-- All eight recognized placeholder tokens, in source order. -/
def tokens : List Str := yearTokens ++ authorTokens

/-- The eight replacement steps of `replace_placeholders` as
(pattern, replacement) pairs, in source order. -/
def stepsOf (year author : Str) : List (Str × Str) :=
  (yearTokens.map fun t => (t, year)) ++ (authorTokens.map fun t => (t, author))

/-- Apply a list of replacement steps left to right. -/
def applySteps (steps : List (Str × Str)) (s : Str) : Str :=
  steps.foldl (fun r pr => strReplace r pr.1 pr.2) s

theorem replace_placeholders_eq (t y a : Str) :
    replace_placeholders t y a = applySteps (stepsOf y a) t := rfl

theorem applySteps_preserve {qat : Str} (hq : qat ≠ []) :
    ∀ (steps : List (Str × Str)) (s : Str),
      (∀ pr ∈ steps, pr.1 ≠ [] ∧ pr.2 ≠ [] ∧ ∀ c ∈ pr.2, c ∉ qat) →
      ¬ qat <:+: s → ¬ qat <:+: applySteps steps s := by
  intro steps
  induction steps with
  | nil => intro s _ hs; exact hs
  | cons pr rest ih =>
    intro s hcond hs
    obtain ⟨h1, h2, h3⟩ := hcond pr (List.mem_cons_self _ _)
    exact ih (strReplace s pr.1 pr.2)
      (fun q hq' => hcond q (List.mem_cons_of_mem _ hq'))
      (strReplace_keeps_no h1 h2 hq h3 hs)

theorem applySteps_removes {qat : Str} (hq : qat ≠ []) :
    ∀ (steps : List (Str × Str)) (s : Str),
      (∀ pr ∈ steps, pr.1 ≠ [] ∧ pr.2 ≠ [] ∧ ∀ c ∈ pr.2, c ∉ qat) →
      (∃ pr ∈ steps, pr.1 = qat) → ¬ qat <:+: applySteps steps s := by
  intro steps
  induction steps with
  | nil => intro s _ hex; simp at hex
  | cons pr rest ih =>
    intro s hcond hex
    obtain ⟨h1, h2, h3⟩ := hcond pr (List.mem_cons_self _ _)
    rcases hex with ⟨pr', hpr', hqat⟩
    rcases List.mem_cons.mp hpr' with rfl | hmem
    · subst hqat
      exact applySteps_preserve hq rest _
        (fun q hq' => hcond q (List.mem_cons_of_mem _ hq'))
        (strReplace_no_self h1 h2 h3 s)
    · exact ih (strReplace s pr.1 pr.2)
        (fun q hq' => hcond q (List.mem_cons_of_mem _ hq'))
        ⟨pr', hmem, hqat⟩

theorem tokens_ne_nil : ∀ tok ∈ tokens, tok ≠ [] := by decide

/-- All eight tokens are pairwise non-overlapping. -/
theorem noOv_tokens : ∀ A ∈ tokens, ∀ B ∈ tokens, A ≠ B → noOv A B := by decide

theorem steps_cond {y a : Str} (hy : y ≠ []) (ha : a ≠ []) (qat : Str)
    (hyq : ∀ c ∈ y, c ∉ qat) (haq : ∀ c ∈ a, c ∉ qat) :
    ∀ pr ∈ stepsOf y a, pr.1 ≠ [] ∧ pr.2 ≠ [] ∧ ∀ c ∈ pr.2, c ∉ qat := by
  intro pr hpr
  simp only [stepsOf, yearTokens, authorTokens, List.map_cons, List.map_nil,
    List.cons_append, List.nil_append, List.mem_cons, List.not_mem_nil, or_false] at hpr
  rcases hpr with h|h|h|h|h|h|h|h <;> subst h <;>
    exact ⟨List.cons_ne_nil _ _, by first | exact hy | exact ha,
      by first | exact hyq | exact haq⟩

theorem tok_step (y a : Str) : ∀ tok ∈ tokens, ∃ pr ∈ stepsOf y a, pr.1 = tok := by
  intro tok htok
  simp only [tokens, yearTokens, authorTokens, List.cons_append, List.nil_append,
    List.mem_cons, List.not_mem_nil, or_false] at htok
  rcases htok with rfl|rfl|rfl|rfl|rfl|rfl|rfl|rfl <;>
    first
      | (refine ⟨(_, y), ?_, rfl⟩; simp [stepsOf, yearTokens, authorTokens]; done)
      | (refine ⟨(_, a), ?_, rfl⟩; simp [stepsOf, yearTokens, authorTokens])

/-- Any two of the eight replacement steps commute, provided the year and
author strings are nonempty and contain no character of any token. -/
theorem step_comm {y a : Str} (hy : y ≠ []) (ha : a ≠ [])
    (hyc : ∀ c ∈ y, ∀ tok ∈ tokens, c ∉ tok)
    (hac : ∀ c ∈ a, ∀ tok ∈ tokens, c ∉ tok) :
    ∀ p ∈ stepsOf y a, ∀ q ∈ stepsOf y a, ∀ s : Str,
      strReplace (strReplace s p.1 p.2) q.1 q.2
        = strReplace (strReplace s q.1 q.2) p.1 p.2 := by
  intro p hp q hq s
  simp only [stepsOf, yearTokens, authorTokens, List.map_cons, List.map_nil,
    List.cons_append, List.nil_append, List.mem_cons, List.not_mem_nil, or_false] at hp hq
  rcases hp with h|h|h|h|h|h|h|h <;> subst h <;>
    (rcases hq with h|h|h|h|h|h|h|h <;> subst h) <;>
    first
      | rfl
      | exact strReplace_comm (List.cons_ne_nil _ _) (List.cons_ne_nil _ _) hy hy
          (noOv_tokens _ (by decide) _ (by decide) (by decide))
          (fun c hc => ⟨hyc c hc _ (by decide), hyc c hc _ (by decide)⟩)
          (fun c hc => ⟨hyc c hc _ (by decide), hyc c hc _ (by decide)⟩) s
      | exact strReplace_comm (List.cons_ne_nil _ _) (List.cons_ne_nil _ _) hy ha
          (noOv_tokens _ (by decide) _ (by decide) (by decide))
          (fun c hc => ⟨hyc c hc _ (by decide), hyc c hc _ (by decide)⟩)
          (fun c hc => ⟨hac c hc _ (by decide), hac c hc _ (by decide)⟩) s
      | exact strReplace_comm (List.cons_ne_nil _ _) (List.cons_ne_nil _ _) ha hy
          (noOv_tokens _ (by decide) _ (by decide) (by decide))
          (fun c hc => ⟨hac c hc _ (by decide), hac c hc _ (by decide)⟩)
          (fun c hc => ⟨hyc c hc _ (by decide), hyc c hc _ (by decide)⟩) s
      | exact strReplace_comm (List.cons_ne_nil _ _) (List.cons_ne_nil _ _) ha ha
          (noOv_tokens _ (by decide) _ (by decide) (by decide))
          (fun c hc => ⟨hac c hc _ (by decide), hac c hc _ (by decide)⟩)
          (fun c hc => ⟨hac c hc _ (by decide), hac c hc _ (by decide)⟩) s

theorem step_fst_mem {y a : Str} : ∀ pr ∈ stepsOf y a, pr.1 ∈ tokens := by
  intro pr hpr
  simp only [stepsOf, yearTokens, authorTokens, List.map_cons, List.map_nil,
    List.cons_append, List.nil_append, List.mem_cons, List.not_mem_nil, or_false] at hpr
  rcases hpr with h|h|h|h|h|h|h|h <;> subst h <;>
    simp [tokens, yearTokens, authorTokens]

theorem applySteps_id {steps : List (Str × Str)} :
    ∀ {s : Str}, (∀ pr ∈ steps, ¬ pr.1 <:+: s) → applySteps steps s = s := by
  induction steps with
  | nil => intro s _; rfl
  | cons pr rest ih =>
    intro s h
    show applySteps rest (strReplace s pr.1 pr.2) = s
    rw [strReplace_of_no (h pr (List.mem_cons_self _ _))]
    exact ih (fun q hq => h q (List.mem_cons_of_mem _ hq))

/-! ## Claims C1, C2 and C4 -/

/-- **C1** (amended).  For every template, if the year and author strings are
nonempty and contain no character occurring in any of the eight recognized
placeholder tokens, then the output of `replace_placeholders` contains no
occurrence of any of the eight tokens.  (The unconditional claim is false:
see `C1_counterexample`.) -/
theorem C1_rendered_output_token_free (t y a : Str) (hy : y ≠ []) (ha : a ≠ [])
    (hyc : ∀ c ∈ y, ∀ tok ∈ tokens, c ∉ tok)
    (hac : ∀ c ∈ a, ∀ tok ∈ tokens, c ∉ tok) :
    ∀ tok ∈ tokens, ¬ tok <:+: replace_placeholders t y a := by
  intro tok htok
  rw [replace_placeholders_eq]
  exact applySteps_removes (tokens_ne_nil tok htok) _ t
    (steps_cond hy ha tok (fun c hc => hyc c hc tok htok) (fun c hc => hac c hc tok htok))
    (tok_step y a tok htok)

theorem C1_rendered_output_token_free_witness :
    ("2024".data ≠ [] ∧ "Jq".data ≠ [] ∧
      (∀ c ∈ "2024".data, ∀ tok ∈ tokens, c ∉ tok) ∧
      (∀ c ∈ "Jq".data, ∀ tok ∈ tokens, c ∉ tok)) ∧
    ∀ tok ∈ tokens,
      ¬ tok <:+: replace_placeholders ("Copyright (c) [year] [fullname]".data)
        ("2024".data) ("Jq".data) :=
  ⟨⟨by decide, by decide, by decide, by decide⟩,
    C1_rendered_output_token_free _ _ _ (by decide) (by decide) (by decide) (by decide)⟩

/-- **C1** fails as stated: with template `"[year]"`, year `"YEAR"` and
author `"A"`, the output is `"YEAR"`, which is itself a recognized token. -/
theorem C1_counterexample :
    ("YEAR".data ∈ tokens) ∧
    "YEAR".data <:+: replace_placeholders ("[year]".data) ("YEAR".data) ("A".data) := by
  decide

/-- **C2** (amended).  If the year and author strings are nonempty and
contain no character occurring in any token, then applying the eight
replacement steps in any permutation of the source order yields the same
string as `replace_placeholders` (which applies them in source order).
(The unconditional claim is false: see `C2_counterexample`.) -/
theorem C2_order_independent {y a : Str} (hy : y ≠ []) (ha : a ≠ [])
    (hyc : ∀ c ∈ y, ∀ tok ∈ tokens, c ∉ tok)
    (hac : ∀ c ∈ a, ∀ tok ∈ tokens, c ∉ tok)
    (l : List (Str × Str)) (hperm : l.Perm (stepsOf y a)) (t : Str) :
    applySteps l t = replace_placeholders t y a := by
  rw [replace_placeholders_eq]
  exact hperm.foldl_eq'
    (fun p hp q hq s =>
      step_comm hy ha hyc hac p (hperm.subset hp) q (hperm.subset hq) s) t

theorem C2_order_independent_witness :
    ("2024".data ≠ [] ∧ "Jq".data ≠ [] ∧
      (∀ c ∈ "2024".data, ∀ tok ∈ tokens, c ∉ tok) ∧
      (∀ c ∈ "Jq".data, ∀ tok ∈ tokens, c ∉ tok) ∧
      ((stepsOf ("2024".data) ("Jq".data)).reverse.Perm (stepsOf ("2024".data) ("Jq".data)))) ∧
    applySteps (stepsOf ("2024".data) ("Jq".data)).reverse
        ("[year] <copyright holders>".data)
      = replace_placeholders ("[year] <copyright holders>".data) ("2024".data) ("Jq".data) :=
  ⟨⟨by decide, by decide, by decide, by decide, by decide⟩,
    C2_order_independent (by decide) (by decide) (by decide) (by decide) _ (by decide) _⟩

/-- The eight replacement steps for year `""` and author `"A"`, with the
`"[year]"` and `"[yyyy]"` steps transposed (a permutation of the source
order). -/
def swappedSteps : List (Str × Str) :=
  [("[yyyy]".data, ([] : Str)), ("[year]".data, ([] : Str)),
   ("<year>".data, ([] : Str)), ("YEAR".data, ([] : Str)),
   ("[fullname]".data, "A".data), ("[name of copyright owner]".data, "A".data),
   ("<copyright holders>".data, "A".data), ("<name of author>".data, "A".data)]

/-- **C2** fails as stated: on template `"[y[yyyy]ear]"` with year `""` and
author `"A"`, the source order leaves `"[year]"` while the transposed order
produces `""`. -/
theorem C2_counterexample :
    swappedSteps.Perm (stepsOf [] ("A".data)) ∧
    applySteps swappedSteps ("[y[yyyy]ear]".data)
      ≠ replace_placeholders ("[y[yyyy]ear]".data) [] ("A".data) := by
  decide

/-- **C4**.  On a template containing no occurrence of any recognized token,
`replace_placeholders` is the identity, for every year and author; in
particular re-rendering an already-rendered (token-free) template is a
no-op. -/
theorem C4_token_free_fixed_point (t y a : Str)
    (h : ∀ tok ∈ tokens, ¬ tok <:+: t) :
    replace_placeholders t y a = t ∧
    replace_placeholders (replace_placeholders t y a) y a
      = replace_placeholders t y a := by
  have h1 : replace_placeholders t y a = t := by
    rw [replace_placeholders_eq]
    exact applySteps_id (fun pr hpr => h pr.1 (step_fst_mem pr hpr))
  exact ⟨h1, by rw [h1, h1]⟩

theorem C4_token_free_fixed_point_witness :
    (∀ tok ∈ tokens, ¬ tok <:+: "Hello license".data) ∧
    (replace_placeholders ("Hello license".data) ("Y".data) ("A".data) = "Hello license".data ∧
      replace_placeholders
          (replace_placeholders ("Hello license".data) ("Y".data) ("A".data)) ("Y".data) ("A".data)
        = replace_placeholders ("Hello license".data) ("Y".data) ("A".data)) :=
  ⟨by decide, C4_token_free_fixed_point _ _ _ (by decide)⟩

/-! ## `get_git_user_name` (src/main.rs, lines 135-148)

The external invocation `Command::new("git").args(["config","user.name"]).output()`
is modelled by a `ProcessOutcome`: either the process could not be spawned
(`.ok()?` yields `None`), or it ran with an exit status and raw stdout
bytes.  `String::from_utf8` is modelled by `utf8Decode` (standard UTF-8
validation: no continuation/overlong lead bytes, well-formed multi-byte
sequences, no surrogates, no code points above `0x10FFFF`), and
`str::trim` by `rustTrim` (drop leading and trailing Unicode whitespace). -/

/-- Outcome of the one external process invocation. -/
inductive ProcessOutcome where
  | spawnErr : ProcessOutcome
  | ran (success : Bool) (stdout : List Nat) : ProcessOutcome

/-- Model of Rust `String::from_utf8`: decode a byte sequence, `none` when
it is not valid UTF-8. -/
def utf8Decode : List Nat → Option (List Char)
  | [] => some []
  | b :: bs =>
    if b < 0x80 then
      match utf8Decode bs with
      | some cs => some (Char.ofNat b :: cs)
      | none => none
    else if b < 0xC2 then none
    else if b < 0xE0 then
      match bs with
      | b1 :: bs' =>
        if 0x80 ≤ b1 ∧ b1 < 0xC0 then
          match utf8Decode bs' with
          | some cs => some (Char.ofNat ((b - 0xC2) * 0x40 + 0x80 + (b1 - 0x80)) :: cs)
          | none => none
        else none
      | [] => none
    else if b < 0xF0 then
      match bs with
      | b1 :: b2 :: bs' =>
        if (0x80 ≤ b1 ∧ b1 < 0xC0) ∧ (0x80 ≤ b2 ∧ b2 < 0xC0) ∧
            (b = 0xE0 → 0xA0 ≤ b1) ∧ (b = 0xED → b1 < 0xA0) then
          match utf8Decode bs' with
          | some cs =>
            some (Char.ofNat ((b - 0xE0) * 0x1000 + (b1 - 0x80) * 0x40 + (b2 - 0x80)) :: cs)
          | none => none
        else none
      | _ => none
    else if b < 0xF5 then
      match bs with
      | b1 :: b2 :: b3 :: bs' =>
        if (0x80 ≤ b1 ∧ b1 < 0xC0) ∧ (0x80 ≤ b2 ∧ b2 < 0xC0) ∧ (0x80 ≤ b3 ∧ b3 < 0xC0) ∧
            (b = 0xF0 → 0x90 ≤ b1) ∧ (b = 0xF4 → b1 < 0x90) then
          match utf8Decode bs' with
          | some cs =>
            some (Char.ofNat ((b - 0xF0) * 0x40000 + (b1 - 0x80) * 0x1000 +
              (b2 - 0x80) * 0x40 + (b3 - 0x80)) :: cs)
          | none => none
        else none
      | _ => none
    else none

/-- The Unicode `White_Space` code points (what Rust `char::is_whitespace`
recognizes). -/
def wsCodes : List Nat :=
  [0x9, 0xA, 0xB, 0xC, 0xD, 0x20, 0x85, 0xA0, 0x1680,
   0x2000, 0x2001, 0x2002, 0x2003, 0x2004, 0x2005, 0x2006, 0x2007, 0x2008,
   0x2009, 0x200A, 0x2028, 0x2029, 0x202F, 0x205F, 0x3000]

/-- Model of Rust `char::is_whitespace`. -/
def isRustWhitespace (c : Char) : Bool := wsCodes.contains c.toNat

/-- Model of Rust `str::trim`: drop leading and trailing whitespace. -/
def rustTrim (s : Str) : Str :=
  ((s.dropWhile isRustWhitespace).reverse.dropWhile isRustWhitespace).reverse

/-- `fn get_git_user_name() -> Option<String>`: spawn failure yields `None`
(via `.ok()?`); on an unsuccessful exit status the function returns `None`;
otherwise the stdout bytes are UTF-8-decoded (`None` on invalid UTF-8, via
`.ok()`) and trimmed. -/
def get_git_user_name (p : ProcessOutcome) : Option Str :=
  match p with
  | ProcessOutcome.spawnErr => none
  | ProcessOutcome.ran success stdout =>
    if success then (utf8Decode stdout).map rustTrim
    else none

/-! ## The CLI handlers (src/main.rs, lines 45-133)

`Cli` is the parsed flag record.  `Env` packages the outcomes of all
external interactions of one run: the git process outcome, the current
year string (`Local::now().year().to_string()`), the two registry
endpoints (`fetch_licenses_list`, `fetch_license_body`; `Except.error ()`
models any transport/HTTP-status/parse failure), and the three interactive
prompt outcomes (`Except.error ()` models the user cancelling a prompt;
for the input prompts the argument is the pre-filled default shown to the
user).  The `intro`/`outro` banner calls and the final `fs::write` are
modelled as succeeding; the run returns its `anyhow::Result` together with
the list of file writes it performed (path, content). -/

structure LicenseMeta where
  key : Str
  name : Str
  spdx_id : Str

structure LicenseDetail where
  name : Str
  body : Str

structure Cli where
  author : Option Str
  year : Option Str
  license : Option Str
  interactive : Bool

inductive AppError where
  | config : AppError
  | registry : AppError
  | cancelled : AppError
deriving DecidableEq

structure Env where
  git : ProcessOutcome
  currentYear : Str
  fetchList : Except Unit (List LicenseMeta)
  fetchBody : Str → Except Unit LicenseDetail
  selectOutcome : List (Str × Str × Str) → Except Unit Str
  authorOutcome : Str → Except Unit Str
  yearOutcome : Str → Except Unit Str

/-- A file-write event: (path, content). -/
abbrev FileWrite := Str × Str

/-- Author resolution of direct mode: the `--author` flag, else the git
identity. -/
def resolveAuthorDirect (cli : Cli) (env : Env) : Option Str :=
  match cli.author with
  | some a => some a
  | none => get_git_user_name env.git

/-- `async fn handle_cli`: resolve the license key (default `"mit"`),
resolve the author (error `config` when both flag and git identity are
absent — the `.context("Author name not found...")?` line), resolve the
year (default: current year), fetch the license body (propagating registry
errors), render, write `LICENSE`. -/
def handle_cli (cli : Cli) (env : Env) : Except AppError Unit × List FileWrite :=
  let license_key := cli.license.getD ("mit".data)
  match resolveAuthorDirect cli env with
  | none => (Except.error AppError.config, [])
  | some author =>
    let year := cli.year.getD env.currentYear
    match env.fetchBody license_key with
    | Except.error _ => (Except.error AppError.registry, [])
    | Except.ok detail =>
      (Except.ok (), [("LICENSE".data, replace_placeholders detail.body year author)])

/-- License-key resolution of interactive mode: the `--license` flag, else
fetch the list and run the selection prompt (cancellation propagates). -/
def resolveKeyI (cli : Cli) (env : Env) : Except AppError Str :=
  match cli.license with
  | some k => Except.ok k
  | none =>
    match env.fetchList with
    | Except.error _ => Except.error AppError.registry
    | Except.ok metas =>
      match env.selectOutcome (metas.map fun l => (l.key, l.name, l.spdx_id)) with
      | Except.error _ => Except.error AppError.cancelled
      | Except.ok k => Except.ok k

/-- Author resolution of interactive mode: the `--author` flag, else an
input prompt whose editable default is the git identity or `"Your Name"`. -/
def resolveAuthorI (cli : Cli) (env : Env) : Except AppError Str :=
  match cli.author with
  | some a => Except.ok a
  | none =>
    let default_author := (get_git_user_name env.git).getD ("Your Name".data)
    match env.authorOutcome default_author with
    | Except.error _ => Except.error AppError.cancelled
    | Except.ok a => Except.ok a

/-- Year resolution of interactive mode: the `--year` flag, else an input
prompt whose editable default is the current year. -/
def resolveYearI (cli : Cli) (env : Env) : Except AppError Str :=
  match cli.year with
  | some y => Except.ok y
  | none =>
    match env.yearOutcome env.currentYear with
    | Except.error _ => Except.error AppError.cancelled
    | Except.ok yr => Except.ok yr

/-- `async fn handle_interactive`: the three resolutions run in order
(license key, author, year), any error aborts the run before the fetch and
the write; then fetch, render, write as in direct mode. -/
def handle_interactive (cli : Cli) (env : Env) : Except AppError Unit × List FileWrite :=
  match resolveKeyI cli env with
  | Except.error e => (Except.error e, [])
  | Except.ok license_key =>
    match resolveAuthorI cli env with
    | Except.error e => (Except.error e, [])
    | Except.ok author =>
      match resolveYearI cli env with
      | Except.error e => (Except.error e, [])
      | Except.ok year =>
        match env.fetchBody license_key with
        | Except.error _ => (Except.error AppError.registry, [])
        | Except.ok detail =>
          (Except.ok (), [("LICENSE".data, replace_placeholders detail.body year author)])

/-- `async fn main`: dispatch on the `-i` flag. -/
def lic_main (cli : Cli) (env : Env) : Except AppError Unit × List FileWrite :=
  if cli.interactive then handle_interactive cli env else handle_cli cli env

/-- Process exit code: `main` returns `Ok(())` (exit 0) or an error
(nonzero exit). -/
def exitCode (r : Except AppError Unit) : Nat :=
  match r with
  | Except.ok _ => 0
  | Except.error _ => 1

/-! ## Properties of `rustTrim` -/

theorem dropWhile_head_not {p : Char → Bool} :
    ∀ {l : Str} {c : Char}, (l.dropWhile p).head? = some c → p c = false := by
  intro l
  induction l with
  | nil => intro c h; simp [List.dropWhile] at h
  | cons d l' ih =>
    intro c h
    rw [List.dropWhile_cons] at h
    by_cases hd : p d
    · rw [if_pos hd] at h; exact ih h
    · rw [if_neg hd] at h
      simp only [List.head?_cons, Option.some.injEq] at h
      subst h
      exact Bool.eq_false_iff.mpr hd

theorem dropWhile_getLast {p : Char → Bool} :
    ∀ {l : Str}, l.dropWhile p ≠ [] → (l.dropWhile p).getLast? = l.getLast? := by
  intro l
  induction l with
  | nil => intro h; exact absurd rfl h
  | cons d l' ih =>
    intro h
    rw [List.dropWhile_cons] at h ⊢
    by_cases hd : p d
    · rw [if_pos hd] at h ⊢
      rw [ih h]
      have hl' : l' ≠ [] := by rintro rfl; simp [List.dropWhile] at h
      cases l' with
      | nil => exact absurd rfl hl'
      | cons e l'' => rw [List.getLast?_cons_cons]
    · rw [if_neg hd]

theorem rustTrim_head {s : Str} {c : Char} (h : (rustTrim s).head? = some c) :
    isRustWhitespace c = false := by
  unfold rustTrim at h
  rw [List.head?_reverse] at h
  have hne : (List.reverse (s.dropWhile isRustWhitespace)).dropWhile isRustWhitespace ≠ [] := by
    intro h0; rw [h0] at h; simp at h
  rw [dropWhile_getLast hne, List.getLast?_reverse] at h
  exact dropWhile_head_not h

theorem rustTrim_last {s : Str} {c : Char} (h : (rustTrim s).getLast? = some c) :
    isRustWhitespace c = false := by
  unfold rustTrim at h
  rw [List.getLast?_reverse] at h
  exact dropWhile_head_not h

/-! ## Concrete environments used as witnesses -/

/-- An environment whose registry returns a fixed body, whose git lookup
fails to spawn, and whose selection prompt is cancelled. -/
def envOkBody : Env where
  git := ProcessOutcome.spawnErr
  currentYear := "2026".data
  fetchList := Except.ok []
  fetchBody := fun _ => Except.ok ⟨"MIT License".data, "<year> <name of author>".data⟩
  selectOutcome := fun _ => Except.error ()
  authorOutcome := fun d => Except.ok d
  yearOutcome := fun d => Except.ok d

/-- An environment whose registry fetch fails (e.g. HTTP 404). -/
def envFetchFail : Env := { envOkBody with fetchBody := fun _ => Except.error () }

/-! ## Claims C3, C5, C6, C7, C8 -/

/-- **C3**.  Direct mode with `--license mit --author "A" --year "2020"`:
if the registry returns a license whose body is `"<year> <name of author>"`,
the program writes a file named `LICENSE` whose content contains
`"2020 A"`. -/
theorem C3_direct_scenario (env : Env) (nm : Str)
    (hfetch : env.fetchBody ("mit".data)
      = Except.ok ⟨nm, "<year> <name of author>".data⟩) :
    ∃ content,
      handle_cli ⟨some ("A".data), some ("2020".data), some ("mit".data), false⟩ env
        = (Except.ok (), [("LICENSE".data, content)]) ∧
      "2020 A".data <:+: content := by
  have key : handle_cli ⟨some ("A".data), some ("2020".data), some ("mit".data), false⟩ env
      = match env.fetchBody ("mit".data) with
        | Except.error _ => (Except.error AppError.registry, [])
        | Except.ok detail =>
          (Except.ok (), [("LICENSE".data,
            replace_placeholders detail.body ("2020".data) ("A".data))]) := rfl
  rw [key, hfetch]
  exact ⟨replace_placeholders ("<year> <name of author>".data) ("2020".data) ("A".data),
    rfl, by decide⟩

theorem C3_direct_scenario_witness :
    (envOkBody.fetchBody ("mit".data)
      = Except.ok ⟨"MIT License".data, "<year> <name of author>".data⟩) ∧
    ∃ content,
      handle_cli ⟨some ("A".data), some ("2020".data), some ("mit".data), false⟩ envOkBody
        = (Except.ok (), [("LICENSE".data, content)]) ∧
      "2020 A".data <:+: content :=
  ⟨rfl, C3_direct_scenario envOkBody _ rfl⟩

/-- **C5**.  Direct mode with no `--author` flag and no git identity: the
run fails with the missing-author configuration error, exits nonzero, and
performs no file write (the error is raised before the write step). -/
theorem C5_missing_author (cli : Cli) (env : Env)
    (hint : cli.interactive = false) (hauthor : cli.author = none)
    (hgit : get_git_user_name env.git = none) :
    lic_main cli env = (Except.error AppError.config, []) ∧
    exitCode (lic_main cli env).1 = 1 := by
  have hres : resolveAuthorDirect cli env = none := by
    unfold resolveAuthorDirect
    rw [hauthor]
    exact hgit
  have hcli : handle_cli cli env = (Except.error AppError.config, []) := by
    simp only [handle_cli, hres]
  have hmain : lic_main cli env = (Except.error AppError.config, []) := by
    unfold lic_main
    rw [hint]
    exact hcli
  exact ⟨hmain, by rw [hmain]; rfl⟩

theorem C5_missing_author_witness :
    ((⟨none, none, none, false⟩ : Cli).interactive = false ∧
      (⟨none, none, none, false⟩ : Cli).author = none ∧
      get_git_user_name envOkBody.git = none) ∧
    (lic_main ⟨none, none, none, false⟩ envOkBody = (Except.error AppError.config, []) ∧
      exitCode (lic_main ⟨none, none, none, false⟩ envOkBody).1 = 1) :=
  ⟨⟨rfl, rfl, rfl⟩, C5_missing_author _ _ rfl rfl rfl⟩

/-- **C6**.  If a direct-mode run resolves an author but the registry fetch
of the license body fails (e.g. HTTP 404 for an unknown key), the registry
error propagates to the top level, the program exits nonzero, and no
`LICENSE` file is written. -/
theorem C6_registry_error (cli : Cli) (env : Env) (author : Str)
    (hint : cli.interactive = false)
    (hauthor : resolveAuthorDirect cli env = some author)
    (hfetch : env.fetchBody (cli.license.getD ("mit".data)) = Except.error ()) :
    lic_main cli env = (Except.error AppError.registry, []) ∧
    exitCode (lic_main cli env).1 = 1 := by
  have hcli : handle_cli cli env = (Except.error AppError.registry, []) := by
    simp only [handle_cli, hauthor, hfetch]
  have hmain : lic_main cli env = (Except.error AppError.registry, []) := by
    unfold lic_main
    rw [hint]
    exact hcli
  exact ⟨hmain, by rw [hmain]; rfl⟩

theorem C6_registry_error_witness :
    ((⟨some ("A".data), some ("2020".data), none, false⟩ : Cli).interactive = false ∧
      resolveAuthorDirect ⟨some ("A".data), some ("2020".data), none, false⟩ envFetchFail
        = some ("A".data) ∧
      envFetchFail.fetchBody
          ((⟨some ("A".data), some ("2020".data), none, false⟩ : Cli).license.getD ("mit".data))
        = Except.error ()) ∧
    (lic_main ⟨some ("A".data), some ("2020".data), none, false⟩ envFetchFail
        = (Except.error AppError.registry, []) ∧
      exitCode (lic_main ⟨some ("A".data), some ("2020".data), none, false⟩ envFetchFail).1 = 1) :=
  ⟨⟨rfl, rfl, rfl⟩, C6_registry_error _ _ _ rfl rfl rfl⟩

/-- **C7**.  Interactive mode: if the user cancels whichever of the three
prompts is reached first among those actually consulted (the selection
prompt, the author prompt, or the year prompt), the run terminates with the
cancellation error, exits nonzero, and writes no file. -/
theorem C7_prompt_cancelled (cli : Cli) (env : Env) (hint : cli.interactive = true)
    (h : resolveKeyI cli env = Except.error AppError.cancelled
      ∨ (∃ k, resolveKeyI cli env = Except.ok k ∧
          resolveAuthorI cli env = Except.error AppError.cancelled)
      ∨ (∃ k a, resolveKeyI cli env = Except.ok k ∧ resolveAuthorI cli env = Except.ok a ∧
          resolveYearI cli env = Except.error AppError.cancelled)) :
    lic_main cli env = (Except.error AppError.cancelled, []) ∧
    exitCode (lic_main cli env).1 = 1 := by
  have hi : handle_interactive cli env = (Except.error AppError.cancelled, []) := by
    rcases h with hk | ⟨k, hk, ha⟩ | ⟨k, a, hk, ha, hy⟩
    · simp only [handle_interactive, hk]
    · simp only [handle_interactive, hk, ha]
    · simp only [handle_interactive, hk, ha, hy]
  have hmain : lic_main cli env = (Except.error AppError.cancelled, []) := by
    unfold lic_main
    rw [hint]
    exact hi
  exact ⟨hmain, by rw [hmain]; rfl⟩

theorem C7_prompt_cancelled_witness :
    ((⟨none, none, none, true⟩ : Cli).interactive = true ∧
      resolveKeyI ⟨none, none, none, true⟩ envOkBody = Except.error AppError.cancelled) ∧
    (lic_main ⟨none, none, none, true⟩ envOkBody = (Except.error AppError.cancelled, []) ∧
      exitCode (lic_main ⟨none, none, none, true⟩ envOkBody).1 = 1) :=
  ⟨⟨rfl, rfl⟩, C7_prompt_cancelled _ _ rfl (Or.inl rfl)⟩

/-- **C8** (amended).  The program performs no non-emptiness validation:
whatever author the direct-mode resolution yields and whatever year flag
was given are passed verbatim to the renderer, and the license key passed
to the fetch is the flag value or the literal `"mit"` (which is nonempty
when the flag is absent).  In particular empty flag values reach the
renderer and the fetch unchanged.  (The claimed invariant is false: see
`C8_counterexample`.) -/
theorem C8_flags_passed_verbatim (cli : Cli) (env : Env) (author : Str)
    (detail : LicenseDetail)
    (hauthor : resolveAuthorDirect cli env = some author)
    (hfetch : env.fetchBody (cli.license.getD ("mit".data)) = Except.ok detail) :
    handle_cli cli env
      = (Except.ok (), [("LICENSE".data,
          replace_placeholders detail.body (cli.year.getD env.currentYear) author)]) ∧
    (cli.license = none → cli.license.getD ("mit".data) ≠ []) := by
  constructor
  · simp only [handle_cli, hauthor, hfetch]
  · intro h
    rw [h]
    decide

theorem C8_flags_passed_verbatim_witness :
    (resolveAuthorDirect ⟨some ("A".data), none, none, false⟩ envOkBody = some ("A".data) ∧
      envOkBody.fetchBody
          ((⟨some ("A".data), none, none, false⟩ : Cli).license.getD ("mit".data))
        = Except.ok ⟨"MIT License".data, "<year> <name of author>".data⟩) ∧
    (handle_cli ⟨some ("A".data), none, none, false⟩ envOkBody
        = (Except.ok (), [("LICENSE".data,
            replace_placeholders ("<year> <name of author>".data)
              ((⟨some ("A".data), none, none, false⟩ : Cli).year.getD envOkBody.currentYear)
              ("A".data))]) ∧
      ((⟨some ("A".data), none, none, false⟩ : Cli).license = none →
        (⟨some ("A".data), none, none, false⟩ : Cli).license.getD ("mit".data) ≠ [])) :=
  ⟨⟨rfl, rfl⟩, C8_flags_passed_verbatim ⟨some ("A".data), none, none, false⟩ envOkBody
    ("A".data) ⟨"MIT License".data, "<year> <name of author>".data⟩ rfl rfl⟩

/-- **C8** fails as stated: with `--author ""` (an empty author flag) the
run reaches the rendering step and writes `LICENSE`, with the empty string
as the author value — the resolved author is *not* nonempty. -/
theorem C8_counterexample :
    resolveAuthorDirect ⟨some [], some ("2020".data), some ("mit".data), false⟩ envOkBody
      = some [] ∧
    exitCode (handle_cli ⟨some [], some ("2020".data), some ("mit".data), false⟩ envOkBody).1
      = 0 ∧
    (handle_cli ⟨some [], some ("2020".data), some ("mit".data), false⟩ envOkBody).2
      = [("LICENSE".data, "2020 ".data)] := by
  refine ⟨rfl, rfl, ?_⟩
  decide

/-! ## Claims C9 and C10 -/

/-- **C9**.  `get_git_user_name` is a total function into `Option`: it
never raises an error.  It returns `none` on spawn failure, on an
unsuccessful exit status, and on non-UTF-8 stdout, and it returns a present
value exactly when the process ran successfully and its stdout decodes as
UTF-8. -/
theorem C9_git_lookup_never_fails (p : ProcessOutcome) :
    (get_git_user_name p
      = match p with
        | ProcessOutcome.ran true bytes => (utf8Decode bytes).map rustTrim
        | _ => none) ∧
    ((get_git_user_name p).isSome
      ↔ ∃ bytes cs, p = ProcessOutcome.ran true bytes ∧ utf8Decode bytes = some cs) := by
  constructor
  · cases p with
    | spawnErr => rfl
    | ran success bytes => cases success <;> rfl
  · cases p with
    | spawnErr =>
      constructor
      · intro hs; exact absurd hs Bool.false_ne_true
      · rintro ⟨bytes, cs, h, _⟩; exact ProcessOutcome.noConfusion h
    | ran success bytes =>
      cases success with
      | false =>
        constructor
        · intro hs; exact absurd hs Bool.false_ne_true
        · rintro ⟨bytes', cs, h, _⟩
          injection h
      | true =>
        constructor
        · intro hs
          cases hu : utf8Decode bytes with
          | none =>
            rw [show get_git_user_name (ProcessOutcome.ran true bytes)
                = (utf8Decode bytes).map rustTrim from rfl, hu] at hs
            exact absurd hs Bool.false_ne_true
          | some cs => exact ⟨bytes, cs, rfl, hu⟩
        · rintro ⟨bytes', cs, h, hu⟩
          injection h with _ h2
          subst h2
          rw [show get_git_user_name (ProcessOutcome.ran true bytes)
              = (utf8Decode bytes).map rustTrim from rfl, hu]
          rfl

/-- **C10**.  When the git lookup succeeds, the returned string is the
process stdout with leading and trailing whitespace removed; in particular
it never starts or ends with a whitespace character. -/
theorem C10_git_name_trimmed (p : ProcessOutcome) (s : Str)
    (h : get_git_user_name p = some s) :
    (∃ bytes cs, p = ProcessOutcome.ran true bytes ∧ utf8Decode bytes = some cs ∧
      s = rustTrim cs) ∧
    (∀ c, s.head? = some c → isRustWhitespace c = false) ∧
    (∀ c, s.getLast? = some c → isRustWhitespace c = false) := by
  cases p with
  | spawnErr => exact absurd h (by simp [get_git_user_name])
  | ran success bytes =>
    cases success with
    | false => exact absurd h (by simp [get_git_user_name])
    | true =>
      have h' : (utf8Decode bytes).map rustTrim = some s := h
      rw [Option.map_eq_some'] at h'
      obtain ⟨cs, hcs, hs⟩ := h'
      subst hs
      refine ⟨⟨bytes, cs, rfl, hcs, rfl⟩, ?_, ?_⟩
      · intro c hc; exact rustTrim_head hc
      · intro c hc; exact rustTrim_last hc

theorem C10_git_name_trimmed_witness :
    (get_git_user_name (ProcessOutcome.ran true [65, 32, 10]) = some ("A".data)) ∧
    ((∃ bytes cs, ProcessOutcome.ran true [65, 32, 10] = ProcessOutcome.ran true bytes ∧
        utf8Decode bytes = some cs ∧ "A".data = rustTrim cs) ∧
      (∀ c, ("A".data).head? = some c → isRustWhitespace c = false) ∧
      (∀ c, ("A".data).getLast? = some c → isRustWhitespace c = false)) :=
  ⟨by decide, C10_git_name_trimmed _ _ (by decide)⟩

end Lic
